import Mathlib

/-!
# Record normalisation of `dnsr` (`src/rr.go`)

A shallow embedding of `convertRR` and `RR.String` together with the library
functions they call, followed by the properties proved about them.

Conventions of the embedding:

* a Go `string` is a Lean `String` (a sequence of Unicode code points; Go
  strings that are not valid UTF-8 are outside the model);
* Go's unsigned machine integers (`uint8`, `uint16`, `uint32`) are `Nat`; the
  converter only copies and prints them, and range assumptions are stated as
  hypotheses where a theorem needs them;
* a `net.IP` is the list of its bytes;
* the `dns.RR` interface is a sum type with one constructor per record kind
  that `convertRR` names and one constructor for every other kind, which
  carries the text that its `String()` method returns; a nil interface value
  or nil record pointer is not a record and is outside the model;
* the functions of the Go standard library (`strings`, `net`, `fmt`) and of
  the DNS library (`dns.ClassToString`) that `convertRR` calls are not part of
  the repository; they are transcribed here from the libraries, loops as
  recursive functions over an explicit state.
-/

namespace dnsr

/-! ## Data model -/

/-- RR represents a DNS resource record (`type RR struct`, `src/rr.go` 10-16).
The field `Type` of the source is `Type_` here, `Type` being reserved. -/
structure RR where
  Name : String
  Type_ : String
  Value : String
  Class : String
  Ttl : Nat
deriving DecidableEq, Repr

/-- The zero value `RR{}` of Go. -/
def RR.zero : RR := ⟨"", "", "", "", 0⟩

/-- The constant `NameCollision` (`src/rr.go` 31). -/
def NameCollision : String := "127.0.53.53"

namespace dns

/-- The fields of `dns.RR_Header` that the converter reads. -/
structure RR_Header where
  Name : String
  Class : Nat
  Ttl : Nat
deriving DecidableEq, Repr

/-- The `dns.RR` values that `convertRR` distinguishes.  For the six kinds of
the type switch only the payload field that the converter reads is kept;
`other` stands for any other record kind and carries the result of its
`String()` method. -/
inductive RR where
  | SOA (Hdr : RR_Header) (Ns : String)
  | NS (Hdr : RR_Header) (Ns : String)
  | CNAME (Hdr : RR_Header) (Target : String)
  | A (Hdr : RR_Header) (A : List Nat)
  | AAAA (Hdr : RR_Header) (AAAA : List Nat)
  | TXT (Hdr : RR_Header) (Txt : List String)
  | other (rendering : String)
deriving DecidableEq, Repr

/-- The table `dns.ClassToString` of the DNS library (class code to mnemonic),
as an association list. -/
def classTable : List (Nat × String) :=
  [(1, "IN"), (2, "CS"), (3, "CH"), (4, "HS"), (254, "NONE"), (255, "ANY")]

/-- The Go map index expression `dns.ClassToString[c]`: the mnemonic of the
class code, and the zero value `""` for a code that is not a key. -/
def ClassToString (c : Nat) : String :=
  match classTable.lookup c with
  | some s => s
  | none => ""

end dns

/-! ## `strings` -/

namespace strings

/-- The predicate `unicode.IsSpace`: the Latin-1 cases and the `White_Space`
range table. -/
def IsSpace (r : Char) : Bool :=
  let n := r.toNat
  if n ≤ 0xFF then
    n == 0x09 || n == 0x0A || n == 0x0B || n == 0x0C || n == 0x0D || n == 0x20
      || n == 0x85 || n == 0xA0
  else
    n == 0x1680 || (0x2000 ≤ n && n ≤ 0x200A) || n == 0x2028 || n == 0x2029
      || n == 0x202F || n == 0x205F || n == 0x3000

/-- The scanning loop of `strings.Fields` (`FieldsFunc` with `unicode.IsSpace`).
`cur` is the field being read (`none` between fields, the characters in
reverse order otherwise) and `acc` the fields completed so far, last first. -/
def fieldsLoop : List Char → Option (List Char) → List String → List String
  | [], none, acc => acc.reverse
  | [], some cur, acc => (String.mk cur.reverse :: acc).reverse
  | r :: rs, none, acc =>
    if IsSpace r then fieldsLoop rs none acc else fieldsLoop rs (some [r]) acc
  | r :: rs, some cur, acc =>
    if IsSpace r then fieldsLoop rs none (String.mk cur.reverse :: acc)
    else fieldsLoop rs (some (r :: cur)) acc

/-- The function `strings.Fields`: the maximal runs of non-space characters
of `s`, in order. -/
def Fields (s : String) : List String :=
  fieldsLoop s.data none []

/-- The function `strings.Join`: nothing for no element, the element itself
for one, and otherwise the first element followed by `sep` and each further
element in turn. -/
def Join (elems : List String) (sep : String) : String :=
  match elems with
  | [] => ""
  | [e] => e
  | e :: rest => rest.foldl (fun b s => b ++ sep ++ s) e

/-- The ASCII case of `strings.ToLower`: the letters `A` to `Z` are moved to
`a` to `z` and every other character is kept (a domain name in presentation
format is ASCII; Go additionally maps non-ASCII upper-case letters). -/
def ToLower (s : String) : String :=
  String.mk (s.data.map Char.toLower)

/-- The function `strings.HasSuffix` for a one-character suffix. -/
def endsWith (s : String) (c : Char) : Bool :=
  s.data.getLast? == some c

/-- The loop of `strings.Split` (`genSplit`) for a separator of one
character: the text is cut at every occurrence of the separator.  `cur` is
the piece being read, in reverse order, and `acc` the pieces completed so
far, last first. -/
def splitLoop (sep : Char) : List Char → List Char → List String → List String
  | [], cur, acc => (String.mk cur.reverse :: acc).reverse
  | r :: rs, cur, acc =>
    if r = sep then splitLoop sep rs [] (String.mk cur.reverse :: acc)
    else splitLoop sep rs (r :: cur) acc

/-- The function `strings.Split` for a separator of one character: the
pieces of `s` between the occurrences of `sep`, one more than there are
occurrences. -/
def Split (s : String) (sep : Char) : List String :=
  splitLoop sep s.data [] []

end strings

/-! ## `net`: the text form of an IP address -/

namespace net

/-- The lengths `net.IPv4len` and `net.IPv6len` of an address in bytes. -/
def IPv4len : Nat := 4

/-- See `IPv4len`. -/
def IPv6len : Nat := 16

/-- The digit table `"0123456789abcdef"` of the address printers, indexed (the
printers index it with values below 16 only). -/
def digits (n : Nat) : Char :=
  "0123456789abcdef".data.getD n '0'

/-- The function `appendDecimal`: the decimal text of a byte, appended. -/
def appendDecimal (b : String) (x : Nat) : String :=
  let b := if x ≥ 100 then b.push (digits (x / 100)) else b
  let b := if x ≥ 10 then b.push (digits (x / 10 % 10)) else b
  b.push (digits (x % 10))

/-- The function `appendHex`: the hexadecimal text of a 16-bit group,
appended. -/
def appendHex (b : String) (x : Nat) : String :=
  let b := if x ≥ 0x1000 then b.push (digits (x >>> 12)) else b
  let b := if x ≥ 0x100 then b.push (digits (x >>> 8 &&& 0xf)) else b
  let b := if x ≥ 0x10 then b.push (digits (x >>> 4 &&& 0xf)) else b
  b.push (digits (x &&& 0xf))

/-- The function `hexString`: two hexadecimal digits for every byte. -/
def hexString (b : List Nat) : String :=
  String.mk (b.flatMap fun tn => [digits (tn >>> 4), digits (tn &&& 0xf)])

/-- The method `IP.To4`: the four bytes of an IPv4 address, given in four
bytes or as an IPv4-mapped IPv6 address (ten zero bytes, `ff ff`, four
bytes); `none` (Go's `nil`) for every other value. -/
def To4 (ip : List Nat) : Option (List Nat) :=
  if ip.length = IPv4len then some ip
  else if ip.length = IPv6len ∧ (ip.take 10).all (fun b => b == 0)
      ∧ ip.getD 10 0 = 0xff ∧ ip.getD 11 0 = 0xff then some (ip.drop 12)
  else none

/-- The dotted-decimal printer (`appendTo4`) on the four bytes `p4`. -/
def string4 (p4 : List Nat) : String :=
  let ret := appendDecimal "" (p4.getD 0 0)
  let ret := ret.push '.'
  let ret := appendDecimal ret (p4.getD 1 0)
  let ret := ret.push '.'
  let ret := appendDecimal ret (p4.getD 2 0)
  let ret := ret.push '.'
  appendDecimal ret (p4.getD 3 0)

/-- The 16-bit group `i` (0 to 7) of a 16-byte address, big-endian
(`v6u16`). -/
def v6u16 (ip : List Nat) (i : Nat) : Nat :=
  ip.getD (2 * i) 0 * 256 + ip.getD (2 * i + 1) 0

/-- Subtraction of `uint8` values, wrapping. -/
def sub8 (a b : Nat) : Nat :=
  (a + 256 - b) % 256

/-- The inner loop `for j < 8 && ip.v6u16(j) == 0 { j++ }` of `appendTo6`;
the first argument bounds the number of iterations. -/
def zeroRunEnd (ip : List Nat) : Nat → Nat → Nat
  | 0, j => j
  | fuel + 1, j =>
    if j < 8 ∧ v6u16 ip j = 0 then zeroRunEnd ip fuel (j + 1) else j

/-- The first loop of `appendTo6`, `for i := uint8(0); i < 8; i++`, which
looks for the longest run of zero groups: from index `i` with the current
`zeroStart`, `zeroEnd`. -/
def findZeros (ip : List Nat) : Nat → Nat → Nat × Nat → Nat × Nat
  | 0, _, z => z
  | fuel + 1, i, (zeroStart, zeroEnd) =>
    if i < 8 then
      let j := zeroRunEnd ip 8 i
      let l := sub8 j i
      if l ≥ 2 ∧ l > sub8 zeroEnd zeroStart then findZeros ip fuel (i + 1) (i, j)
      else findZeros ip fuel (i + 1) (zeroStart, zeroEnd)
    else (zeroStart, zeroEnd)

/-- The second loop of `appendTo6`, which prints the groups with `::` in
place of the run of zeros: from index `i` with the text `ret` so far. -/
def printGroups (ip : List Nat) (zeroStart zeroEnd : Nat) : Nat → Nat → String → String
  | 0, _, ret => ret
  | fuel + 1, i, ret =>
    if i < 8 then
      if i = zeroStart then
        let ret := (ret.push ':').push ':'
        let i := zeroEnd
        if i ≥ 8 then ret
        else printGroups ip zeroStart zeroEnd fuel (i + 1) (appendHex ret (v6u16 ip i))
      else if i > 0 then
        printGroups ip zeroStart zeroEnd fuel (i + 1) (appendHex (ret.push ':') (v6u16 ip i))
      else printGroups ip zeroStart zeroEnd fuel (i + 1) (appendHex ret (v6u16 ip i))
    else ret

/-- The IPv6 printer (`string6`, `appendTo6`) on a 16-byte address: both
loops run over the eight groups, so eight iterations are allowed. -/
def string6 (ip : List Nat) : String :=
  let z := findZeros ip 8 0 (255, 255)
  printGroups ip z.1 z.2 8 0 ""

/-- The method `IP.String`: `<nil>` for no byte, `?` and the bytes in
hexadecimal for a length other than 4 and 16, dotted decimal for an IPv4 or
IPv4-mapped address, and the IPv6 text otherwise. -/
def IP.String (ip : List Nat) : String :=
  if ip.length = 0 then "<nil>"
  else if ip.length ≠ IPv4len ∧ ip.length ≠ IPv6len then "?" ++ hexString ip
  else
    match To4 ip with
    | some p4 => string4 p4
    | none => string6 ip

end net

/-- Modelled from the spec: the helper `toLowerFQDN` is called by `convertRR`
but its body is not in `src/rr.go`.  The spec (4.1, name normalization) says
that a domain name "is lowercased and kept in fully-qualified (trailing-dot)
form": the name is lowercased, and a dot is appended unless the name already
ends with one. -/
def toLowerFQDN (name : String) : String :=
  let l := strings.ToLower name
  if strings.endsWith l '.' then l else l ++ "."

/-! ## The converter -/

/-- The function `fmt.Sprint` on a `uint32`: its decimal text. -/
def Sprint (n : Nat) : String :=
  toString n

/-- String returns a string representation of an RR in zone-file format
(`src/rr.go` 34-36). -/
def RR.String (rr : RR) : String :=
  rr.Name ++ "\t      " ++ Sprint rr.Ttl ++ "\t " ++ rr.Class ++ "\t" ++ rr.Type_ ++ "\t" ++ rr.Value

/-- The function `convertRR` (`src/rr.go` 42-64): the type switch over the
record kinds, the generic fallback on the whitespace-separated fields of the
textual rendering, and the final `return RR{}, false`. -/
def convertRR (drr : dns.RR) : RR × Bool :=
  match drr with
  | .SOA Hdr Ns =>
    (⟨toLowerFQDN Hdr.Name, "SOA", toLowerFQDN Ns, dns.ClassToString Hdr.Class, Hdr.Ttl⟩, true)
  | .NS Hdr Ns =>
    (⟨toLowerFQDN Hdr.Name, "NS", toLowerFQDN Ns, dns.ClassToString Hdr.Class, Hdr.Ttl⟩, true)
  | .CNAME Hdr Target =>
    (⟨toLowerFQDN Hdr.Name, "CNAME", toLowerFQDN Target, dns.ClassToString Hdr.Class, Hdr.Ttl⟩, true)
  | .A Hdr A =>
    (⟨toLowerFQDN Hdr.Name, "A", net.IP.String A, dns.ClassToString Hdr.Class, Hdr.Ttl⟩, true)
  | .AAAA Hdr AAAA =>
    (⟨toLowerFQDN Hdr.Name, "AAAA", net.IP.String AAAA, dns.ClassToString Hdr.Class, Hdr.Ttl⟩, true)
  | .TXT Hdr Txt =>
    (⟨toLowerFQDN Hdr.Name, "TXT", strings.Join Txt "\t", dns.ClassToString Hdr.Class, Hdr.Ttl⟩, true)
  | .other rendering =>
    let fields := strings.Fields rendering
    if fields.length ≥ 4 then
      (⟨toLowerFQDN (fields.getD 0 ""), fields.getD 3 "", strings.Join (fields.drop 4) "\t", "", 0⟩,
        true)
    else (RR.zero, false)

/-! ## Specification-side notions -/

/-- The segments in order with exactly one tab character between
consecutive segments; the empty string for no segment. -/
def tabJoined : List String → String
  | [] => ""
  | [s] => s
  | s :: t :: rest => s ++ "\t" ++ tabJoined (t :: rest)

/-- A text is a lowercase fully-qualified name: no upper-case ASCII letter
occurs in it and its last character is a dot. -/
def isLowerFQDN (s : String) : Prop :=
  (∀ c ∈ s.data, c.isUpper = false) ∧ s.data.getLast? = some '.'

/-- A field of `strings.Fields`: not empty and without a space character. -/
def isField (f : String) : Prop :=
  f.data ≠ [] ∧ ∀ c ∈ f.data, strings.IsSpace c = false

/-- The dotted-decimal text of the IPv4 address with octets `a`, `b`, `c`,
`d`: the decimal numerals separated by dots. -/
def dottedDecimal (a b c d : Nat) : String :=
  toString a ++ "." ++ toString b ++ "." ++ toString c ++ "." ++ toString d

/-- The hexadecimal numeral of a group: lowercase digits, most significant
first, without leading zeros (`0` for zero). -/
def hexNumeral (x : Nat) : String :=
  String.mk (Nat.toDigits 16 x)

/-- The numerals of the groups with one colon between consecutive groups. -/
def colonJoined : List Nat → String
  | [] => ""
  | [g] => hexNumeral g
  | g :: h :: rest => hexNumeral g ++ ":" ++ colonJoined (h :: rest)

/-- The numerals of the groups, each preceded by a colon. -/
def colonTail : List Nat → String
  | [] => ""
  | g :: gs => ":" ++ hexNumeral g ++ colonTail gs

/-- The eight 16-bit groups of a 16-byte address: consecutive byte pairs,
high byte first. -/
def groupsOf : List Nat → List Nat
  | hi :: lo :: rest => (hi * 256 + lo) :: groupsOf rest
  | _ => []

/-- The number of zero groups at the head of the list. -/
def leadingZeros : List Nat → Nat
  | [] => 0
  | g :: gs => if g = 0 then leadingZeros gs + 1 else 0

/-- The leftmost longest run of zero groups, as its start index and its
length (length 0 when no group is zero). -/
def longestZeroRun : List Nat → Nat × Nat
  | [] => (0, 0)
  | g :: gs =>
    let here := leadingZeros (g :: gs)
    let later := longestZeroRun gs
    if later.2 ≤ here then (0, here) else (later.1 + 1, later.2)

/-- The standard text form of an IPv6 address (RFC 5952): the eight groups as
hexadecimal numerals separated by colons, where the leftmost longest run of
two or more zero groups is written `::`. -/
def ipv6Text (ip : List Nat) : String :=
  let gs := groupsOf ip
  let run := longestZeroRun gs
  if run.2 ≥ 2 then
    colonJoined (gs.take run.1) ++ "::" ++ colonJoined (gs.drop (run.1 + run.2))
  else colonJoined gs

/-- An IPv4-mapped IPv6 address: ten zero bytes, then `ff ff`. -/
def isV4Mapped (ip : List Nat) : Prop :=
  ip.take 12 = [0, 0, 0, 0, 0, 0, 0, 0, 0, 0, 0xff, 0xff]

instance isV4Mapped.decidable (ip : List Nat) : Decidable (isV4Mapped ip) := by
  unfold isV4Mapped
  infer_instance

/-- The header of a record of one of the six explicit kinds (SOA, NS, CNAME,
A, AAAA, TXT); `none` for a record of another kind. -/
def explicitHdr : dns.RR → Option dns.RR_Header
  | .SOA Hdr _ => some Hdr
  | .NS Hdr _ => some Hdr
  | .CNAME Hdr _ => some Hdr
  | .A Hdr _ => some Hdr
  | .AAAA Hdr _ => some Hdr
  | .TXT Hdr _ => some Hdr
  | .other _ => none

/-- The single-line tab-separated layout of a record: `Name`, the decimal
text of `Ttl`, `Class`, `Type` and `Value` with exactly one tab character
between consecutive fields. -/
def tabLine (rr : RR) : String :=
  tabJoined [rr.Name, toString rr.Ttl, rr.Class, rr.Type_, rr.Value]

/-! ## Lemmas on the library functions -/

/-- The joining loop of `strings.Join` commutes with a prefix of its buffer. -/
theorem foldl_sep_append (sep : String) (rest : List String) (e f : String) :
    rest.foldl (fun b s => b ++ sep ++ s) (e ++ f)
      = e ++ rest.foldl (fun b s => b ++ sep ++ s) f := by
  induction rest generalizing f with
  | nil => rfl
  | cons r rest ih =>
    simp only [List.foldl_cons]
    rw [String.append_assoc, String.append_assoc, ← String.append_assoc f, ih]

/-- On every list `strings.Join` with a tab separator is the tab-joined text. -/
theorem Join_tab_eq_tabJoined (elems : List String) :
    strings.Join elems "\t" = tabJoined elems := by
  induction elems with
  | nil => rfl
  | cons e rest ih =>
    cases rest with
    | nil => rfl
    | cons t rest =>
      have h : strings.Join (e :: t :: rest) "\t"
          = e ++ "\t" ++ strings.Join (t :: rest) "\t" := by
        cases rest with
        | nil => rfl
        | cons u rest =>
          show (u :: rest).foldl _ (e ++ "\t" ++ t) = e ++ "\t" ++ (u :: rest).foldl _ t
          exact foldl_sep_append "\t" (u :: rest) (e ++ "\t") t
      rw [h, ih]
      rfl

/-- A lowercased character is not an upper-case ASCII letter. -/
theorem toLower_not_isUpper (c : Char) : c.toLower.isUpper = false := by
  unfold Char.toLower
  by_cases h : c.toNat ≥ 65 ∧ c.toNat ≤ 90
  · simp only [h, and_self, if_true]
    obtain ⟨h1, h2⟩ := h
    generalize c.toNat = n at h1 h2 ⊢
    interval_cases n <;> rfl
  · simp only [h, if_false]
    cases hu : c.isUpper with
    | false => rfl
    | true =>
      exfalso
      apply h
      simp only [Char.isUpper, Bool.and_eq_true, decide_eq_true_eq] at hu
      exact ⟨hu.1, hu.2⟩

/-- Every result of `toLowerFQDN` is a lowercase fully-qualified name. -/
theorem toLowerFQDN_isLowerFQDN (name : String) : isLowerFQDN (toLowerFQDN name) := by
  unfold toLowerFQDN
  have hl : ∀ c ∈ (strings.ToLower name).data, c.isUpper = false := by
    intro c hc
    simp only [strings.ToLower, List.mem_map] at hc
    obtain ⟨d, _, rfl⟩ := hc
    exact toLower_not_isUpper d
  by_cases h : strings.endsWith (strings.ToLower name) '.' = true
  · simp only [h, if_true]
    refine ⟨hl, ?_⟩
    simpa [strings.endsWith] using h
  · rw [if_neg h]
    refine ⟨?_, ?_⟩
    · intro c hc
      simp only [String.data_append, List.mem_append] at hc
      rcases hc with hc | hc
      · exact hl c hc
      · have : c = '.' := by simpa using hc
        subst this
        rfl
    · show ((strings.ToLower name).data ++ ['.']).getLast? = some '.'
      exact List.getLast?_concat _

/-- A lowercase fully-qualified name is not empty: it ends with a dot. -/
theorem isLowerFQDN_ne_empty (s : String) (h : isLowerFQDN s) : s ≠ "" := by
  intro he
  subst he
  have := h.2
  simp at this

/-- Invariant of the scanning loop: the field being read and the completed
fields are non-empty and free of space characters, so every returned field is. -/
theorem fieldsLoop_isField (rs : List Char) :
    ∀ (cur : Option (List Char)) (acc : List String),
      (∀ l, cur = some l → l ≠ [] ∧ ∀ c ∈ l, strings.IsSpace c = false) →
      (∀ f ∈ acc, isField f) →
      ∀ f ∈ strings.fieldsLoop rs cur acc, isField f := by
  induction rs with
  | nil =>
    intro cur acc hcur hacc f hf
    cases cur with
    | none =>
      simp only [strings.fieldsLoop, List.mem_reverse] at hf
      exact hacc f hf
    | some l =>
      simp only [strings.fieldsLoop, List.mem_reverse, List.mem_cons] at hf
      rcases hf with rfl | hf
      · obtain ⟨h1, h2⟩ := hcur l rfl
        exact ⟨by simpa using h1, by simpa using h2⟩
      · exact hacc f hf
  | cons r rs ih =>
    intro cur acc hcur hacc
    cases cur with
    | none =>
      simp only [strings.fieldsLoop]
      split
      · exact ih none acc (by simp) hacc
      · rename_i hr
        refine ih (some [r]) acc ?_ hacc
        intro l hl
        cases hl
        exact ⟨by simp, by simpa using hr⟩
    | some l =>
      obtain ⟨h1, h2⟩ := hcur l rfl
      simp only [strings.fieldsLoop]
      split
      · refine ih none _ (by simp) ?_
        intro f hf
        simp only [List.mem_cons] at hf
        rcases hf with rfl | hf
        · exact ⟨by simpa using h1, by simpa using h2⟩
        · exact hacc f hf
      · rename_i hr
        refine ih (some (r :: l)) acc ?_ hacc
        intro l2 hl2
        cases hl2
        refine ⟨by simp, ?_⟩
        intro c hc
        simp only [List.mem_cons] at hc
        rcases hc with rfl | hc
        · simpa using hr
        · exact h2 c hc

/-- Every element of `strings.Fields s` is non-empty and free of space characters. -/
theorem Fields_isField (s f : String) (hf : f ∈ strings.Fields s) : isField f :=
  fieldsLoop_isField s.data none [] (by simp) (by simp) f hf

/-- A field is not the empty string. -/
theorem isField_ne_empty (f : String) (h : isField f) : f ≠ "" := by
  intro he
  subst he
  exact h.1 rfl

/-- Appending one character is appending the one-character string. -/
theorem push_eq_append (s : String) (c : Char) : s.push c = s ++ String.singleton c := by
  apply String.ext
  simp [String.push, String.data_append, String.singleton]

/-- The decimal printer only appends to its buffer. -/
theorem appendDecimal_append (ret : String) (x : Nat) :
    net.appendDecimal ret x = ret ++ net.appendDecimal "" x := by
  unfold net.appendDecimal
  by_cases h1 : x ≥ 100 <;> by_cases h2 : x ≥ 10 <;>
    simp only [h1, h2, if_true, if_false, push_eq_append, String.append_assoc, String.empty_append]

set_option maxRecDepth 100000 in
/-- On a byte the decimal printer writes the decimal numeral. -/
theorem appendDecimal_byte : ∀ x < 256, net.appendDecimal "" x = toString x := by
  decide

/-- The decimal printer appends the decimal numeral of a byte. -/
theorem appendDecimal_eq (ret : String) (x : Nat) (hx : x < 256) :
    net.appendDecimal ret x = ret ++ toString x := by
  rw [appendDecimal_append, appendDecimal_byte x hx]

/-- The dotted-decimal printer writes the four numerals separated by dots. -/
theorem string4_eq (a b c d : Nat) (ha : a < 256) (hb : b < 256) (hc : c < 256)
    (hd : d < 256) : net.string4 [a, b, c, d] = dottedDecimal a b c d := by
  simp only [net.string4, dottedDecimal, List.getD_cons_zero, List.getD_cons_succ,
    appendDecimal_eq _ _ ha, appendDecimal_eq _ _ hb, appendDecimal_eq _ _ hc,
    appendDecimal_eq _ _ hd, push_eq_append, String.empty_append]
  rfl

/-- The digit table agrees with `Nat.digitChar` on the sixteen digits. -/
theorem digits_eq_digitChar : ∀ d < 16, net.digits d = Nat.digitChar d := by decide

/-- The hexadecimal digits of a 16-bit value, most significant first. -/
theorem toDigits_hex (x : Nat) (hx : x < 65536) :
    Nat.toDigits 16 x =
      (if x ≥ 0x1000 then [Nat.digitChar (x / 4096)] else [])
      ++ (if x ≥ 0x100 then [Nat.digitChar (x / 256 % 16)] else [])
      ++ (if x ≥ 0x10 then [Nat.digitChar (x / 16 % 16)] else [])
      ++ [Nat.digitChar (x % 16)] := by
  by_cases h4 : x < 4
  · interval_cases x <;> rfl
  · obtain ⟨k, rfl⟩ : ∃ k, x = k + 4 := ⟨x - 4, by omega⟩
    simp only [Nat.toDigits, Nat.toDigitsCore]
    by_cases h1 : (k + 4) / 16 = 0
    · have a1 : ¬ (k + 4 ≥ 0x1000) := by omega
      have a2 : ¬ (k + 4 ≥ 0x100) := by omega
      have a3 : ¬ (k + 4 ≥ 0x10) := by omega
      rw [if_pos h1, if_neg a1, if_neg a2, if_neg a3]
      rfl
    · by_cases h2 : (k + 4) / 16 / 16 = 0
      · have a1 : ¬ (k + 4 ≥ 0x1000) := by omega
        have a2 : ¬ (k + 4 ≥ 0x100) := by omega
        have a3 : (k + 4 ≥ 0x10) := by omega
        rw [if_neg h1, if_pos h2, if_neg a1, if_neg a2, if_pos a3]
        rfl
      · by_cases h3 : (k + 4) / 16 / 16 / 16 = 0
        · have a1 : ¬ (k + 4 ≥ 0x1000) := by omega
          have a2 : (k + 4 ≥ 0x100) := by omega
          have a3 : (k + 4 ≥ 0x10) := by omega
          have e : (k + 4) / 16 / 16 = (k + 4) / 256 := by omega
          rw [if_neg h1, if_neg h2, if_pos h3, if_neg a1, if_pos a2, if_pos a3, e]
          rfl
        · have a1 : (k + 4 ≥ 0x1000) := by omega
          have a2 : (k + 4 ≥ 0x100) := by omega
          have a3 : (k + 4 ≥ 0x10) := by omega
          have e : (k + 4) / 16 / 16 = (k + 4) / 256 := by omega
          have e2 : (k + 4) / 16 / 16 / 16 % 16 = (k + 4) / 4096 := by omega
          have h5 : (k + 4) / 16 / 16 / 16 / 16 = 0 := by omega
          rw [if_neg h1, if_neg h2, if_neg h3, if_pos h5, if_pos a1, if_pos a2, if_pos a3, e2, e]
          rfl

/-- The hexadecimal printer appends the hexadecimal numeral of a 16-bit group. -/
theorem appendHex_eq (ret : String) (x : Nat) (hx : x < 65536) :
    net.appendHex ret x = ret ++ hexNumeral x := by
  have s12 : x >>> 12 = x / 4096 := by rw [Nat.shiftRight_eq_div_pow]
  have s8 : x >>> 8 &&& 0xf = x / 256 % 16 := by
    rw [Nat.shiftRight_eq_div_pow]
    exact Nat.and_pow_two_sub_one_eq_mod _ 4
  have s4 : x >>> 4 &&& 0xf = x / 16 % 16 := by
    rw [Nat.shiftRight_eq_div_pow]
    exact Nat.and_pow_two_sub_one_eq_mod _ 4
  have s0 : x &&& 0xf = x % 16 := Nat.and_pow_two_sub_one_eq_mod _ 4
  have d12 : net.digits (x / 4096) = Nat.digitChar (x / 4096) :=
    digits_eq_digitChar _ (by omega)
  have d8 : net.digits (x / 256 % 16) = Nat.digitChar (x / 256 % 16) :=
    digits_eq_digitChar _ (by omega)
  have d4 : net.digits (x / 16 % 16) = Nat.digitChar (x / 16 % 16) :=
    digits_eq_digitChar _ (by omega)
  have d0 : net.digits (x % 16) = Nat.digitChar (x % 16) :=
    digits_eq_digitChar _ (by omega)
  apply String.ext
  simp only [net.appendHex, hexNumeral, toDigits_hex x hx, s12, s8, s4, s0, d12, d8, d4, d0,
    String.data_append]
  by_cases a1 : x ≥ 0x1000 <;> by_cases a2 : x ≥ 0x100 <;> by_cases a3 : x ≥ 0x10 <;>
    simp [a1, a2, a3, String.push]


/-- There is one group for every two bytes. -/
theorem groupsOf_length : ∀ ip : List Nat, (groupsOf ip).length = ip.length / 2
  | [] => rfl
  | [_] => by simp [groupsOf]
  | hi :: lo :: rest => by
    simp only [groupsOf, List.length_cons, groupsOf_length rest]
    omega

/-- The group `i` read by `v6u16` is the `i`-th element of `groupsOf`. -/
theorem groupsOf_getD : ∀ (ip : List Nat) (i : Nat), 2 * i + 1 < ip.length →
    (groupsOf ip).getD i 0 = net.v6u16 ip i
  | [], _, h => by simp at h
  | [_], _, h => by simp at h
  | hi :: lo :: rest, 0, _ => rfl
  | hi :: lo :: rest, i + 1, h => by
    have h2 : 2 * i + 1 < rest.length := by
      simp only [List.length_cons] at h
      omega
    have e : 2 * (i + 1) = 2 * i + 1 + 1 := by omega
    simp only [groupsOf, net.v6u16, List.getD_cons_succ, e]
    exact groupsOf_getD rest i h2

/-- The groups from index `i` on start with the group that `v6u16` reads at `i`. -/
theorem groupsOf_drop (ip : List Nat) (hlen : ip.length = 16) (i : Nat) (hi : i < 8) :
    (groupsOf ip).drop i = net.v6u16 ip i :: (groupsOf ip).drop (i + 1) := by
  have hl : i < (groupsOf ip).length := by
    rw [groupsOf_length, hlen]
    exact hi
  rw [List.drop_eq_getElem_cons hl, ← groupsOf_getD ip i (by omega),
    List.getD_eq_getElem _ _ hl]

/-- A 16-byte address has no group from index 8 on. -/
theorem groupsOf_drop_eight (ip : List Nat) (hlen : ip.length = 16) :
    (groupsOf ip).drop 8 = [] := by
  apply List.drop_of_length_le
  rw [groupsOf_length, hlen]

/-- A run of zero groups is no longer than the list. -/
theorem leadingZeros_le_length : ∀ gs : List Nat, leadingZeros gs ≤ gs.length
  | [] => Nat.le_refl 0
  | g :: gs => by
    have := leadingZeros_le_length gs
    simp only [leadingZeros, List.length_cons]
    split <;> omega

/-- With enough iterations the inner loop stops at the end of the run of zero
groups that starts at `j`. -/
theorem zeroRunEnd_eq (ip : List Nat) (hlen : ip.length = 16) :
    ∀ fuel j, j ≤ 8 → 8 ≤ fuel + j →
      net.zeroRunEnd ip fuel j = j + leadingZeros ((groupsOf ip).drop j) := by
  intro fuel
  induction fuel with
  | zero =>
    intro j hj hf
    have : j = 8 := by omega
    subst this
    simp [net.zeroRunEnd, groupsOf_drop_eight ip hlen, leadingZeros]
  | succ fuel ih =>
    intro j hj hf
    by_cases hj8 : j < 8
    · rw [groupsOf_drop ip hlen j hj8]
      by_cases hz : net.v6u16 ip j = 0
      · simp only [net.zeroRunEnd, leadingZeros, hj8, hz, and_self, if_true]
        rw [ih (j + 1) (by omega) (by omega)]
        omega
      · simp only [net.zeroRunEnd, leadingZeros, hz, and_false, if_false]
        rfl
    · have : j = 8 := by omega
      subst this
      simp [net.zeroRunEnd, groupsOf_drop_eight ip hlen, leadingZeros]

/-- Wrapping subtraction of bytes is subtraction when nothing wraps. -/
theorem sub8_eq (a b : Nat) (hba : b ≤ a) (ha : a < 256) : net.sub8 a b = a - b := by
  unfold net.sub8
  omega

/-- With enough iterations the first loop of `appendTo6`, started at group `i`,
replaces the current run by the leftmost longest run among the groups from `i`
on when that run has at least two groups and is longer, and keeps it otherwise. -/
theorem findZeros_eq (ip : List Nat) (hlen : ip.length = 16) :
    ∀ fuel i zeroStart zeroEnd, i ≤ 8 → 8 ≤ fuel + i → zeroStart ≤ zeroEnd → zeroEnd < 256 →
      net.findZeros ip fuel i (zeroStart, zeroEnd)
        = if (longestZeroRun ((groupsOf ip).drop i)).2 ≥ 2
              ∧ (longestZeroRun ((groupsOf ip).drop i)).2 > zeroEnd - zeroStart
          then (i + (longestZeroRun ((groupsOf ip).drop i)).1,
                i + (longestZeroRun ((groupsOf ip).drop i)).1
                  + (longestZeroRun ((groupsOf ip).drop i)).2)
          else (zeroStart, zeroEnd) := by
  intro fuel
  induction fuel with
  | zero =>
    intro i zs ze hi hf _ _
    have : i = 8 := by omega
    subst this
    simp [net.findZeros, groupsOf_drop_eight ip hlen, longestZeroRun]
  | succ fuel ih =>
    intro i zs ze hi hf hz hze
    by_cases hi8 : i < 8
    · have hrun := zeroRunEnd_eq ip hlen 8 i hi (by omega)
      have hle := leadingZeros_le_length ((groupsOf ip).drop i)
      have hdl : ((groupsOf ip).drop i).length = 8 - i := by
        rw [List.length_drop, groupsOf_length, hlen]
      rw [hdl] at hle
      obtain ⟨here, hH⟩ : ∃ here, leadingZeros ((groupsOf ip).drop i) = here := ⟨_, rfl⟩
      obtain ⟨ls, ll, hlater⟩ :
          ∃ ls ll, longestZeroRun ((groupsOf ip).drop (i + 1)) = (ls, ll) := ⟨_, _, rfl⟩
      rw [hH] at hrun hle
      have hs1 : net.sub8 (net.zeroRunEnd ip 8 i) i = here := by
        rw [hrun, sub8_eq _ _ (by omega) (by omega)]
        omega
      have hs2 : net.sub8 ze zs = ze - zs := sub8_eq _ _ hz hze
      have hL : longestZeroRun ((groupsOf ip).drop i)
          = if ll ≤ here then (0, here) else (ls + 1, ll) := by
        have hcons := groupsOf_drop ip hlen i hi8
        have hstep : longestZeroRun ((groupsOf ip).drop i)
            = if (longestZeroRun ((groupsOf ip).drop (i + 1))).2
                  ≤ leadingZeros ((groupsOf ip).drop i)
              then (0, leadingZeros ((groupsOf ip).drop i))
              else ((longestZeroRun ((groupsOf ip).drop (i + 1))).1 + 1,
                    (longestZeroRun ((groupsOf ip).drop (i + 1))).2) := by
          conv_lhs => rw [hcons]
          rw [hcons]
          rfl
        rw [hstep, hH, hlater]
      simp only [net.findZeros, hi8, if_true, hs1, hs2, hL]
      by_cases hc : here ≥ 2 ∧ here > ze - zs
      · rw [if_pos hc, hrun,
          ih (i + 1) i (i + here) (by omega) (by omega) (by omega) (by omega), hlater]
        by_cases hl : ll ≤ here
        · have h2 : ¬ (ll ≥ 2 ∧ ll > i + here - i) := by omega
          rw [if_pos hl, if_neg h2, if_pos hc]
          rfl
        · have h2 : ll ≥ 2 ∧ ll > i + here - i := by omega
          have h3 : ll ≥ 2 ∧ ll > ze - zs := by omega
          rw [if_neg hl, if_pos h2, if_pos h3]
          simp only [Prod.mk.injEq]
          omega
      · rw [if_neg hc, ih (i + 1) zs ze (by omega) (by omega) hz hze, hlater]
        by_cases hl : ll ≤ here
        · have h2 : ¬ (ll ≥ 2 ∧ ll > ze - zs) := by omega
          rw [if_pos hl, if_neg h2, if_neg hc]
        · rw [if_neg hl]
          by_cases h3 : ll ≥ 2 ∧ ll > ze - zs
          · rw [if_pos h3, if_pos h3]
            simp only [Prod.mk.injEq]
            omega
          · rw [if_neg h3, if_neg h3]
    · have : i = 8 := by omega
      subst this
      simp [net.findZeros, groupsOf_drop_eight ip hlen, longestZeroRun]

/-- The colon-joined text of a non-empty list: its first numeral, then every
further numeral preceded by a colon. -/
theorem colonJoined_cons (g : Nat) (gs : List Nat) :
    colonJoined (g :: gs) = hexNumeral g ++ colonTail gs := by
  induction gs generalizing g with
  | nil => simp [colonJoined, colonTail]
  | cons h rest ih =>
    simp only [colonJoined, colonTail, ih h, String.append_assoc]

/-- Every byte read from an address of bytes is a byte. -/
theorem getD_byte (ip : List Nat) (hb : ∀ b ∈ ip, b < 256) (i : Nat) : ip.getD i 0 < 256 := by
  by_cases h : i < ip.length
  · rw [List.getD_eq_getElem _ _ h]
    exact hb _ (List.getElem_mem _)
  · rw [List.getD_eq_default _ _ (by omega)]
    decide

/-- A group of an address of bytes is a 16-bit value. -/
theorem v6u16_lt (ip : List Nat) (hb : ∀ b ∈ ip, b < 256) (i : Nat) :
    net.v6u16 ip i < 65536 := by
  have h1 := getD_byte ip hb (2 * i)
  have h2 := getD_byte ip hb (2 * i + 1)
  unfold net.v6u16
  omega

/-- Past the run of zeros (or without one) the second loop of `appendTo6`
appends every remaining group preceded by a colon. -/
theorem printGroups_tail (ip : List Nat) (hlen : ip.length = 16) (hb : ∀ b ∈ ip, b < 256)
    (zeroStart zeroEnd : Nat) :
    ∀ fuel i ret, 0 < i → i ≤ 8 → 8 ≤ fuel + i → (zeroStart < i ∨ 8 ≤ zeroStart) →
      net.printGroups ip zeroStart zeroEnd fuel i ret
        = ret ++ colonTail ((groupsOf ip).drop i) := by
  intro fuel
  induction fuel with
  | zero =>
    intro i ret _ hi hf _
    have : i = 8 := by omega
    subst this
    simp [net.printGroups, groupsOf_drop_eight ip hlen, colonTail]
  | succ fuel ih =>
    intro i ret hpos hi hf hz
    by_cases hi8 : i < 8
    · have hne : ¬ i = zeroStart := by omega
      simp only [net.printGroups, hi8, hne, hpos, if_true, if_false]
      rw [ih (i + 1) _ (by omega) (by omega) (by omega) (by omega),
        appendHex_eq _ _ (v6u16_lt ip hb i), push_eq_append, groupsOf_drop ip hlen i hi8]
      simp only [colonTail, String.append_assoc]
      rfl
    · have : i = 8 := by omega
      subst this
      simp [net.printGroups, groupsOf_drop_eight ip hlen, colonTail]

/-- At the start of the run of zeros the second loop writes `::` and then the
groups after the run, colon-joined. -/
theorem printGroups_at_start (ip : List Nat) (hlen : ip.length = 16)
    (hb : ∀ b ∈ ip, b < 256) (s e fuel : Nat) (ret : String)
    (hse : s < e) (he : e ≤ 8) (hf : 8 ≤ fuel + e + 1) :
    net.printGroups ip s e (fuel + 1) s ret
      = ret ++ "::" ++ colonJoined ((groupsOf ip).drop e) := by
  have hs8 : s < 8 := by omega
  by_cases he8 : e ≥ 8
  · have : e = 8 := by omega
    subst this
    simp only [net.printGroups, hs8, if_true, he8, push_eq_append,
      groupsOf_drop_eight ip hlen, colonJoined, String.append_assoc, String.append_empty]
    rfl
  · have he8' : e < 8 := by omega
    simp only [net.printGroups, hs8, if_true, he8, if_false]
    rw [printGroups_tail ip hlen hb s e fuel (e + 1) _ (by omega) (by omega) (by omega)
        (Or.inl (by omega)),
      appendHex_eq _ _ (v6u16_lt ip hb e), push_eq_append, push_eq_append,
      groupsOf_drop ip hlen e he8', colonJoined_cons]
    simp only [String.append_assoc]
    rfl

/-- Before the run of zeros the second loop appends the groups up to the run,
each preceded by a colon, then `::` and the groups after the run. -/
theorem printGroups_before (ip : List Nat) (hlen : ip.length = 16)
    (hb : ∀ b ∈ ip, b < 256) (s e : Nat) (hse : s < e) (he : e ≤ 8) :
    ∀ fuel i ret, 0 < i → i ≤ s → 8 ≤ fuel + i →
      net.printGroups ip s e fuel i ret
        = ret ++ colonTail (((groupsOf ip).drop i).take (s - i)) ++ "::"
            ++ colonJoined ((groupsOf ip).drop e) := by
  intro fuel
  induction fuel with
  | zero =>
    intro i ret _ his hf
    omega
  | succ fuel ih =>
    intro i ret hpos his hf
    by_cases hi : i = s
    · subst hi
      rw [printGroups_at_start ip hlen hb i e fuel ret hse he (by omega)]
      simp [colonTail]
    · have hi8 : i < 8 := by omega
      simp only [net.printGroups, hi8, hi, hpos, if_true, if_false]
      rw [ih (i + 1) _ (by omega) (by omega) (by omega),
        appendHex_eq _ _ (v6u16_lt ip hb i), push_eq_append, groupsOf_drop ip hlen i hi8]
      have e1 : s - i = (s - (i + 1)) + 1 := by omega
      rw [e1, List.take_succ_cons]
      simp only [colonTail, String.append_assoc]
      rfl

/-- The leftmost longest run of zero groups lies within the list. -/
theorem longestZeroRun_le_length : ∀ gs : List Nat,
    (longestZeroRun gs).1 + (longestZeroRun gs).2 ≤ gs.length
  | [] => Nat.le_refl 0
  | g :: gs => by
    have h1 := longestZeroRun_le_length gs
    have h2 := leadingZeros_le_length (g :: gs)
    simp only [longestZeroRun, List.length_cons] at h2 ⊢
    split <;> simp only <;> omega

/-- The first iteration of the second loop when the run of zeros does not start
at group 0: the first group is written without a colon. -/
theorem printGroups_first (ip : List Nat) (zeroStart zeroEnd fuel : Nat) (ret : String)
    (h : zeroStart ≠ 0) :
    net.printGroups ip zeroStart zeroEnd (fuel + 1) 0 ret
      = net.printGroups ip zeroStart zeroEnd fuel 1 (net.appendHex ret (net.v6u16 ip 0)) := by
  have h0 : ¬ (0 = zeroStart) := fun e => h e.symm
  simp only [net.printGroups, h0, if_true, if_false, Nat.lt_irrefl, Nat.zero_lt_succ,
    Nat.zero_add, gt_iff_lt]

/-- The IPv6 printer, with eight iterations for each loop, returns the
standard text form on every 16-byte address. -/
theorem string6_eq_ipv6Text (ip : List Nat) (hlen : ip.length = 16)
    (hb : ∀ b ∈ ip, b < 256) : net.string6 ip = ipv6Text ip := by
  have hz := findZeros_eq ip hlen 8 0 255 255 (by omega) (by omega) (by omega) (by omega)
  have hbound := longestZeroRun_le_length (groupsOf ip)
  have hgl : (groupsOf ip).length = 8 := by rw [groupsOf_length, hlen]
  rw [hgl] at hbound
  have hd0 := groupsOf_drop ip hlen 0 (by omega)
  simp only [List.drop_zero, Nat.zero_add, Nat.sub_self] at hz hd0
  unfold net.string6 ipv6Text
  simp only [hz]
  obtain ⟨s, l, hrun⟩ : ∃ s l, longestZeroRun (groupsOf ip) = (s, l) := ⟨_, _, rfl⟩
  rw [hrun] at hbound ⊢
  simp only at hbound ⊢
  by_cases h2 : l ≥ 2
  · have h2' : l ≥ 2 ∧ l > 0 := by omega
    rw [if_pos h2', if_pos h2]
    simp only
    by_cases hs : s = 0
    · subst hs
      rw [printGroups_at_start ip hlen hb 0 (0 + l) 7 "" (by omega) (by omega) (by omega)]
      simp [colonJoined]
    · rw [printGroups_first ip s (s + l) 7 "" hs,
        printGroups_before ip hlen hb s (s + l) (by omega) (by omega) 7 1 _ (by omega)
          (by omega) (by omega), appendHex_eq _ _ (v6u16_lt ip hb 0)]
      conv_rhs => rw [hd0]
      have e1 : s = (s - 1) + 1 := by omega
      conv_rhs => rw [e1, List.take_succ_cons, colonJoined_cons]
      simp only [String.empty_append, String.append_assoc]
      rw [← hd0, ← e1]
  · have h2' : ¬ (l ≥ 2 ∧ l > 0) := by omega
    rw [if_neg h2', if_neg h2]
    simp only
    rw [printGroups_first ip 255 255 7 "" (by decide),
      printGroups_tail ip hlen hb 255 255 7 1 _ (by omega) (by omega) (by omega)
        (Or.inr (by omega)), appendHex_eq _ _ (v6u16_lt ip hb 0)]
    conv_rhs => rw [hd0, colonJoined_cons]
    simp only [String.empty_append]

/-- A list of length sixteen is a list of sixteen elements. -/
theorem eq_of_length_sixteen (ip : List Nat) (hlen : ip.length = 16) :
    ∃ b0 b1 b2 b3 b4 b5 b6 b7 b8 b9 b10 b11 b12 b13 b14 b15,
      ip = [b0, b1, b2, b3, b4, b5, b6, b7, b8, b9, b10, b11, b12, b13, b14, b15] := by
  match ip, hlen with
  | [b0, b1, b2, b3, b4, b5, b6, b7, b8, b9, b10, b11, b12, b13, b14, b15], _ =>
    exact ⟨b0, b1, b2, b3, b4, b5, b6, b7, b8, b9, b10, b11, b12, b13, b14, b15, rfl⟩

/-- On a 16-byte address `To4` returns the last four bytes exactly when the
address is IPv4-mapped. -/
theorem To4_sixteen (ip : List Nat) (hlen : ip.length = 16) :
    net.To4 ip = if isV4Mapped ip then some (ip.drop 12) else none := by
  obtain ⟨b0, b1, b2, b3, b4, b5, b6, b7, b8, b9, b10, b11, b12, b13, b14, b15, rfl⟩ :=
    eq_of_length_sixteen ip hlen
  by_cases h : isV4Mapped [b0, b1, b2, b3, b4, b5, b6, b7, b8, b9, b10, b11, b12, b13, b14, b15]
  · rw [if_pos h]
    simp only [isV4Mapped, List.take_succ_cons, List.take_zero, List.cons.injEq, and_true] at h
    obtain ⟨rfl, rfl, rfl, rfl, rfl, rfl, rfl, rfl, rfl, rfl, rfl, rfl⟩ := h
    simp [net.To4, net.IPv4len, net.IPv6len]
  · rw [if_neg h]
    simp only [isV4Mapped, List.take_succ_cons, List.take_zero, List.cons.injEq, and_true] at h
    simp only [net.To4, net.IPv4len, net.IPv6len, List.length_cons, List.length_nil]
    rw [if_neg (by decide), if_neg]
    intro hc
    apply h
    simp only [List.take_succ_cons, List.take_zero, List.all_cons, List.all_nil, Bool.and_true,
      Bool.and_eq_true, beq_iff_eq, List.getD_cons_succ, List.getD_cons_zero] at hc
    obtain ⟨-, ⟨h0, h1, h2, h3, h4, h5, h6, h7, h8, h9⟩, h10, h11⟩ := hc
    exact ⟨h0, h1, h2, h3, h4, h5, h6, h7, h8, h9, h10, h11⟩

/-- On a record of an explicit kind `convertRR` succeeds with the normalized
header name, the mnemonic of the header class and the header TTL. -/
theorem convertRR_explicit_header (drr : dns.RR) (Hdr : dns.RR_Header)
    (hk : explicitHdr drr = some Hdr) :
    (convertRR drr).2 = true ∧ (convertRR drr).1.Name = toLowerFQDN Hdr.Name
    ∧ (convertRR drr).1.Class = dns.ClassToString Hdr.Class
    ∧ (convertRR drr).1.Ttl = Hdr.Ttl := by
  cases drr <;> simp only [explicitHdr, Option.some.injEq] at hk <;>
    first
    | (subst hk; exact ⟨rfl, rfl, rfl, rfl⟩)
    | cases hk

/-- The mnemonic of a class code is empty exactly when the code is not a key
of the class table. -/
theorem ClassToString_ne_empty_iff (c : Nat) :
    dns.ClassToString c ≠ "" ↔ c ∈ [1, 2, 3, 4, 254, 255] := by
  by_cases h : c ∈ [1, 2, 3, 4, 254, 255]
  · simp only [h, iff_true]
    simp only [List.mem_cons, List.mem_singleton, List.not_mem_nil, or_false] at h
    rcases h with rfl | rfl | rfl | rfl | rfl | rfl <;> decide
  · simp only [h, iff_false, not_not]
    simp only [List.mem_cons, List.mem_singleton, List.not_mem_nil, or_false, not_or] at h
    obtain ⟨h1, h2, h3, h4, h5, h6⟩ := h
    have e1 : (c == 1) = false := by simpa using h1
    have e2 : (c == 2) = false := by simpa using h2
    have e3 : (c == 3) = false := by simpa using h3
    have e4 : (c == 4) = false := by simpa using h4
    have e5 : (c == 254) = false := by simpa using h5
    have e6 : (c == 255) = false := by simpa using h6
    simp only [dns.ClassToString, dns.classTable, List.lookup, e1, e2, e3, e4, e5, e6]

/-- A character that is not an upper-case ASCII letter is its own lowercase. -/
theorem toLower_of_not_isUpper (c : Char) (h : c.isUpper = false) : c.toLower = c := by
  unfold Char.toLower
  by_cases hc : c.toNat ≥ 65 ∧ c.toNat ≤ 90
  · have hu : c.isUpper = true := by
      simp only [Char.isUpper, Bool.and_eq_true, decide_eq_true_eq]
      exact ⟨hc.1, hc.2⟩
    rw [h] at hu
    cases hu
  · simp only [hc, if_false]

/-- Lowercasing a text without upper-case ASCII letters changes nothing. -/
theorem ToLower_of_no_upper (s : String) (h : ∀ c ∈ s.data, c.isUpper = false) :
    strings.ToLower s = s := by
  apply String.ext
  show s.data.map Char.toLower = s.data
  conv_rhs => rw [← List.map_id s.data]
  exact List.map_congr_left fun c hc => toLower_of_not_isUpper c (h c hc)

/-- A name that ends with a dot is normalized by lowercasing alone. -/
theorem toLowerFQDN_of_trailing_dot (name : String)
    (hdot : name.data.getLast? = some '.') : toLowerFQDN name = strings.ToLower name := by
  have hl : (strings.ToLower name).data.getLast? = some '.' := by
    show (name.data.map Char.toLower).getLast? = some '.'
    rw [List.getLast?_map, hdot]
    rfl
  unfold toLowerFQDN
  have he : strings.endsWith (strings.ToLower name) '.' = true := by
    simp [strings.endsWith, hl]
  simp only [he, if_true]

/-- While a field is being read, characters that are not spaces are added to
it. -/
theorem fieldsLoop_nonspace_append (l : List Char)
    (hl : ∀ c ∈ l, strings.IsSpace c = false) :
    ∀ (rs cur : List Char) (acc : List String),
      strings.fieldsLoop (l ++ rs) (some cur) acc
        = strings.fieldsLoop rs (some (l.reverse ++ cur)) acc := by
  induction l with
  | nil => intro rs cur acc; rfl
  | cons c l ih =>
    intro rs cur acc
    have hc : strings.IsSpace c = false := hl c (List.mem_cons_self _ _)
    have hl2 : ∀ d ∈ l, strings.IsSpace d = false :=
      fun d hd => hl d (List.mem_cons_of_mem _ hd)
    rw [List.cons_append]
    simp only [strings.fieldsLoop, hc, Bool.false_eq_true, if_false]
    rw [ih hl2 rs (c :: cur) acc]
    simp only [List.reverse_cons, List.append_assoc, List.singleton_append]

/-- Between fields, the characters of a field start and fill a new field. -/
theorem fieldsLoop_field_append (f : String) (hf : isField f) (rs : List Char)
    (acc : List String) :
    strings.fieldsLoop (f.data ++ rs) none acc
      = strings.fieldsLoop rs (some f.data.reverse) acc := by
  obtain ⟨hne, hns⟩ := hf
  cases hd : f.data with
  | nil => exact absurd hd hne
  | cons c l =>
    rw [hd] at hns
    have hc : strings.IsSpace c = false := hns c (List.mem_cons_self _ _)
    have hl : ∀ d ∈ l, strings.IsSpace d = false :=
      fun d h => hns d (List.mem_cons_of_mem _ h)
    rw [List.cons_append]
    simp only [strings.fieldsLoop, hc, Bool.false_eq_true, if_false]
    rw [fieldsLoop_nonspace_append l hl rs [c] acc]
    simp only [List.reverse_cons]

/-- A field followed by a space character is completed and recorded. -/
theorem fieldsLoop_field_space (f : String) (hf : isField f) (w : Char)
    (hw : strings.IsSpace w = true) (rs : List Char) (acc : List String) :
    strings.fieldsLoop (f.data ++ w :: rs) none acc = strings.fieldsLoop rs none (f :: acc) := by
  rw [fieldsLoop_field_append f hf]
  simp only [strings.fieldsLoop, hw, if_true, List.reverse_reverse]

/-- A field at the end of the text is recorded as the last field. -/
theorem fieldsLoop_field_end (f : String) (hf : isField f) (acc : List String) :
    strings.fieldsLoop f.data none acc = (f :: acc).reverse := by
  have h := fieldsLoop_field_append f hf [] acc
  rw [List.append_nil] at h
  rw [h]
  simp only [strings.fieldsLoop, List.reverse_reverse]

/-- Between fields a space character is skipped. -/
theorem fieldsLoop_space (w : Char) (hw : strings.IsSpace w = true) (rs : List Char)
    (acc : List String) :
    strings.fieldsLoop (w :: rs) none acc = strings.fieldsLoop rs none acc := by
  simp only [strings.fieldsLoop, hw, if_true]

/-- The text of a non-empty list: its first element, then every further
element preceded by a tab. -/
theorem tabJoined_cons_cons (s t : String) (rest : List String) :
    (tabJoined (s :: t :: rest)).data = s.data ++ '\t' :: (tabJoined (t :: rest)).data := by
  show (s ++ "\t" ++ tabJoined (t :: rest)).data = _
  simp only [String.data_append, List.append_assoc]
  rfl

/-- Scanning the tab-joined text of a list of fields yields those fields. -/
theorem fieldsLoop_tabJoined : ∀ (fs : List String), (∀ f ∈ fs, isField f) →
    ∀ acc : List String,
      strings.fieldsLoop (tabJoined fs).data none acc = acc.reverse ++ fs
  | [], _, acc => by simp [tabJoined, strings.fieldsLoop]
  | [f], h, acc => by
    rw [show tabJoined [f] = f from rfl, fieldsLoop_field_end f (h f (by simp))]
    simp
  | f :: g :: rest, h, acc => by
    rw [tabJoined_cons_cons, fieldsLoop_field_space f (h f (by simp)) '\t' (by decide),
      fieldsLoop_tabJoined (g :: rest) (fun x hx => h x (List.mem_cons_of_mem _ hx))]
    simp

/-- Splitting the tab-joined text of a list of fields on whitespace yields the
list. -/
theorem Fields_tabJoined (fs : List String) (h : ∀ f ∈ fs, isField f) :
    strings.Fields (tabJoined fs) = fs := by
  have := fieldsLoop_tabJoined fs h []
  simpa [strings.Fields] using this

/-- A decimal digit is not a space character. -/
theorem digitChar_not_space : ∀ d < 10, strings.IsSpace (Nat.digitChar d) = false := by
  decide

/-- Every character that the digit loop adds is a decimal digit, hence not a
space character. -/
theorem toDigitsCore_not_space : ∀ (fuel n : Nat) (ds : List Char),
    (∀ c ∈ ds, strings.IsSpace c = false) →
    ∀ c ∈ Nat.toDigitsCore 10 fuel n ds, strings.IsSpace c = false := by
  intro fuel
  induction fuel with
  | zero => intro n ds h; simpa [Nat.toDigitsCore] using h
  | succ fuel ih =>
    intro n ds h
    have hd : ∀ c ∈ Nat.digitChar (n % 10) :: ds, strings.IsSpace c = false := by
      intro c hc
      rcases List.mem_cons.1 hc with rfl | hc
      · exact digitChar_not_space _ (Nat.mod_lt _ (by decide))
      · exact h c hc
    simp only [Nat.toDigitsCore]
    split
    · exact hd
    · exact ih _ _ hd

/-- The digit loop never shortens its accumulator. -/
theorem toDigitsCore_ne_nil : ∀ (fuel n : Nat) (ds : List Char), ds ≠ [] →
    Nat.toDigitsCore 10 fuel n ds ≠ [] := by
  intro fuel
  induction fuel with
  | zero => intro n ds h; simpa [Nat.toDigitsCore] using h
  | succ fuel ih =>
    intro n ds _
    simp only [Nat.toDigitsCore]
    split
    · exact List.cons_ne_nil _ _
    · exact ih _ _ (List.cons_ne_nil _ _)

/-- The decimal text of a number is a field: it is not empty and has no space
character. -/
theorem Sprint_isField (n : Nat) : isField (Sprint n) := by
  have hdata : (Sprint n).data = Nat.toDigitsCore 10 (n + 1) n [] := rfl
  refine ⟨?_, ?_⟩
  · rw [hdata]
    simp only [Nat.toDigitsCore]
    split
    · exact List.cons_ne_nil _ _
    · exact toDigitsCore_ne_nil _ _ _ (List.cons_ne_nil _ _)
  · rw [hdata]
    exact toDigitsCore_not_space _ _ _ (by simp)

/-- While a piece is being read, characters other than the separator are
added to it. -/
theorem splitLoop_append (sep : Char) (l : List Char) (hl : sep ∉ l) :
    ∀ (rs cur : List Char) (acc : List String),
      strings.splitLoop sep (l ++ rs) cur acc
        = strings.splitLoop sep rs (l.reverse ++ cur) acc := by
  induction l with
  | nil => intro rs cur acc; rfl
  | cons c l ih =>
    intro rs cur acc
    have hc : ¬ c = sep := fun e => hl (e ▸ List.mem_cons_self _ _)
    have hl2 : sep ∉ l := fun h => hl (List.mem_cons_of_mem _ h)
    rw [List.cons_append]
    simp only [strings.splitLoop, hc, if_false]
    rw [ih hl2 rs (c :: cur) acc]
    simp only [List.reverse_cons, List.append_assoc, List.singleton_append]

/-- Cutting the tab-joined text of a non-empty list of tab-free segments at
the tabs yields the segments. -/
theorem splitLoop_tabJoined : ∀ (s : String) (rest : List String),
    (∀ t ∈ s :: rest, '\t' ∉ t.data) →
    ∀ acc : List String,
      strings.splitLoop '\t' (tabJoined (s :: rest)).data [] acc = acc.reverse ++ s :: rest
  | s, [], h, acc => by
    have hs : '\t' ∉ s.data := h s (by simp)
    have e := splitLoop_append '\t' s.data hs [] [] acc
    rw [List.append_nil] at e
    rw [show tabJoined [s] = s from rfl, e]
    simp [strings.splitLoop]
  | s, t :: rest, h, acc => by
    have hs : '\t' ∉ s.data := h s (by simp)
    rw [tabJoined_cons_cons, splitLoop_append '\t' s.data hs]
    simp only [strings.splitLoop, if_true, List.append_nil, List.reverse_reverse]
    rw [splitLoop_tabJoined t rest (fun x hx => h x (List.mem_cons_of_mem _ hx))]
    simp

/-! ## Claims -/

/-- C1: for every input record of one of the six explicit kinds (SOA, NS,
CNAME, A, AAAA, TXT), whatever its fields contain, `convertRR` returns the
success flag `true` and a record whose `Type` is the tag of the kind. -/
theorem convertRR_explicit_succeeds :
    (∀ Hdr Ns, (convertRR (.SOA Hdr Ns)).2 = true ∧ (convertRR (.SOA Hdr Ns)).1.Type_ = "SOA")
    ∧ (∀ Hdr Ns, (convertRR (.NS Hdr Ns)).2 = true ∧ (convertRR (.NS Hdr Ns)).1.Type_ = "NS")
    ∧ (∀ Hdr Target,
        (convertRR (.CNAME Hdr Target)).2 = true
          ∧ (convertRR (.CNAME Hdr Target)).1.Type_ = "CNAME")
    ∧ (∀ Hdr A, (convertRR (.A Hdr A)).2 = true ∧ (convertRR (.A Hdr A)).1.Type_ = "A")
    ∧ (∀ Hdr AAAA,
        (convertRR (.AAAA Hdr AAAA)).2 = true ∧ (convertRR (.AAAA Hdr AAAA)).1.Type_ = "AAAA")
    ∧ (∀ Hdr Txt, (convertRR (.TXT Hdr Txt)).2 = true ∧ (convertRR (.TXT Hdr Txt)).1.Type_ = "TXT") :=
  ⟨fun _ _ => ⟨rfl, rfl⟩, fun _ _ => ⟨rfl, rfl⟩, fun _ _ => ⟨rfl, rfl⟩,
    fun _ _ => ⟨rfl, rfl⟩, fun _ _ => ⟨rfl, rfl⟩, fun _ _ => ⟨rfl, rfl⟩⟩

/-- C2: for every SOA, NS and CNAME record the result has the normalized
header name as `Name`, the normalized primary-nameserver field (SOA), target
nameserver (NS) or canonical target (CNAME) as `Value`, the textual header
class as `Class` and the header TTL as `Ttl`, with success `true`; the SOA
record `EXAMPLE.COM.` / `NS1.EXAMPLE.COM.` of class IN and TTL 3600 becomes
`example.com.` / `SOA` / `ns1.example.com.` / `IN` / 3600. -/
theorem convertRR_name_valued_kinds :
    (∀ (Hdr : dns.RR_Header) (Ns : String),
        convertRR (.SOA Hdr Ns)
          = (⟨toLowerFQDN Hdr.Name, "SOA", toLowerFQDN Ns,
              dns.ClassToString Hdr.Class, Hdr.Ttl⟩, true))
    ∧ (∀ (Hdr : dns.RR_Header) (Ns : String),
        convertRR (.NS Hdr Ns)
          = (⟨toLowerFQDN Hdr.Name, "NS", toLowerFQDN Ns,
              dns.ClassToString Hdr.Class, Hdr.Ttl⟩, true))
    ∧ (∀ (Hdr : dns.RR_Header) (Target : String),
        convertRR (.CNAME Hdr Target)
          = (⟨toLowerFQDN Hdr.Name, "CNAME", toLowerFQDN Target,
              dns.ClassToString Hdr.Class, Hdr.Ttl⟩, true))
    ∧ convertRR (.SOA ⟨"EXAMPLE.COM.", 1, 3600⟩ "NS1.EXAMPLE.COM.")
        = (⟨"example.com.", "SOA", "ns1.example.com.", "IN", 3600⟩, true) :=
  ⟨fun _ _ => rfl, fun _ _ => rfl, fun _ _ => rfl, by decide⟩

/-- C3: whenever `convertRR` succeeds, the `Name` of the result contains no
upper-case ASCII letter and ends with a dot; and for an SOA, NS or CNAME
input the same holds of the `Value`. -/
theorem convertRR_names_lower_fqdn (drr : dns.RR) (h : (convertRR drr).2 = true) :
    isLowerFQDN (convertRR drr).1.Name
    ∧ match drr with
      | .SOA _ _ => isLowerFQDN (convertRR drr).1.Value
      | .NS _ _ => isLowerFQDN (convertRR drr).1.Value
      | .CNAME _ _ => isLowerFQDN (convertRR drr).1.Value
      | _ => True := by
  cases drr with
  | SOA Hdr Ns => exact ⟨toLowerFQDN_isLowerFQDN _, toLowerFQDN_isLowerFQDN _⟩
  | NS Hdr Ns => exact ⟨toLowerFQDN_isLowerFQDN _, toLowerFQDN_isLowerFQDN _⟩
  | CNAME Hdr Target => exact ⟨toLowerFQDN_isLowerFQDN _, toLowerFQDN_isLowerFQDN _⟩
  | A Hdr A => exact ⟨toLowerFQDN_isLowerFQDN _, trivial⟩
  | AAAA Hdr AAAA => exact ⟨toLowerFQDN_isLowerFQDN _, trivial⟩
  | TXT Hdr Txt => exact ⟨toLowerFQDN_isLowerFQDN _, trivial⟩
  | other rendering =>
    refine ⟨?_, trivial⟩
    by_cases hl : (strings.Fields rendering).length ≥ 4
    · simp only [convertRR, hl, if_true]
      exact toLowerFQDN_isLowerFQDN _
    · simp [convertRR, hl] at h

/-- The hypothesis of C3 holds of an SOA record and of a record of another
kind with five fields, and the conclusion follows there. -/
theorem convertRR_names_lower_fqdn_witness :
    ((convertRR (.SOA ⟨"EXAMPLE.COM", 1, 3600⟩ "NS1.Example.Com")).2 = true
      ∧ isLowerFQDN (convertRR (.SOA ⟨"EXAMPLE.COM", 1, 3600⟩ "NS1.Example.Com")).1.Name
      ∧ isLowerFQDN (convertRR (.SOA ⟨"EXAMPLE.COM", 1, 3600⟩ "NS1.Example.Com")).1.Value)
    ∧ ((convertRR (.other "Example.COM 3600 IN MX 10")).2 = true
      ∧ isLowerFQDN (convertRR (.other "Example.COM 3600 IN MX 10")).1.Name) :=
  ⟨⟨by decide,
      (convertRR_names_lower_fqdn (.SOA ⟨"EXAMPLE.COM", 1, 3600⟩ "NS1.Example.Com")
        (by decide)).1,
      (convertRR_names_lower_fqdn (.SOA ⟨"EXAMPLE.COM", 1, 3600⟩ "NS1.Example.Com")
        (by decide)).2⟩,
    ⟨by decide,
      (convertRR_names_lower_fqdn (.other "Example.COM 3600 IN MX 10") (by decide)).1⟩⟩

/-- C4: for every TXT record with text segments `s1 .. sn`, `convertRR`
returns `Type` `TXT` and as `Value` the segments in their order with exactly
one tab character between consecutive segments (the empty string for no
segment); the segments `a`, `b`, `c` give `a\tb\tc`. -/
theorem convertRR_TXT_value :
    (∀ (Hdr : dns.RR_Header) (Txt : List String),
        (convertRR (.TXT Hdr Txt)).1.Type_ = "TXT"
          ∧ (convertRR (.TXT Hdr Txt)).1.Value = tabJoined Txt)
    ∧ (∀ Hdr : dns.RR_Header, (convertRR (.TXT Hdr [])).1.Value = "")
    ∧ (∀ Hdr : dns.RR_Header, (convertRR (.TXT Hdr ["a", "b", "c"])).1.Value = "a\tb\tc") :=
  ⟨fun _ Txt => ⟨rfl, Join_tab_eq_tabJoined Txt⟩, fun _ => rfl,
    fun _ => (by decide : strings.Join ["a", "b", "c"] "\t" = "a\tb\tc")⟩

/-- C7: for every record of no explicit kind whose textual rendering splits
on whitespace into the fields `f0, f1, f2, f3` and further fields `rest`,
`convertRR` succeeds with `Name` the normalized `f0`, `Type` the field `f3`
unchanged, `Value` the fields of `rest` joined with single tab characters,
`Class` empty and `Ttl` zero; with exactly five fields the `Value` is the
fifth field, without a tab. -/
theorem convertRR_generic_fields (rendering f0 f1 f2 f3 : String) (rest : List String)
    (h : strings.Fields rendering = f0 :: f1 :: f2 :: f3 :: rest) :
    convertRR (.other rendering) = (⟨toLowerFQDN f0, f3, tabJoined rest, "", 0⟩, true)
    ∧ (∀ f4, rest = [f4] →
        (convertRR (.other rendering)).1.Type_ = f3
          ∧ (convertRR (.other rendering)).1.Value = f4) := by
  have hc : convertRR (.other rendering)
      = (⟨toLowerFQDN f0, f3, tabJoined rest, "", 0⟩, true) := by
    simp only [convertRR, h, List.length_cons, ge_iff_le, Nat.le_add_left, if_true,
      List.getD_cons_zero, List.getD_cons_succ, List.drop_succ_cons, List.drop_zero,
      Join_tab_eq_tabJoined]
  refine ⟨hc, ?_⟩
  intro f4 hr
  subst hr
  rw [hc]
  exact ⟨rfl, rfl⟩

/-- A rendering with five fields has the hypothesis of C7, and the result is
the one C7 gives. -/
theorem convertRR_generic_fields_witness :
    strings.Fields "Example.COM.  3600 IN\tPTR host.example.com."
        = ["Example.COM.", "3600", "IN", "PTR", "host.example.com."]
    ∧ convertRR (.other "Example.COM.  3600 IN\tPTR host.example.com.")
        = (⟨"example.com.", "PTR", "host.example.com.", "", 0⟩, true) :=
  ⟨by decide,
    (convertRR_generic_fields "Example.COM.  3600 IN\tPTR host.example.com."
      "Example.COM." "3600" "IN" "PTR" ["host.example.com."] (by decide)).1.trans (by decide)⟩

/-- C8: `convertRR` returns the success flag `false` exactly when the input
is of none of the six explicit kinds and its textual rendering has fewer than
four whitespace-separated fields; a rendering of another kind with exactly
three fields yields `false`. -/
theorem convertRR_fails_iff :
    (∀ drr : dns.RR,
        (convertRR drr).2 = false
          ↔ ∃ rendering, drr = .other rendering ∧ (strings.Fields rendering).length < 4)
    ∧ (∀ rendering : String, (strings.Fields rendering).length = 3 →
        (convertRR (.other rendering)).2 = false)
    ∧ (convertRR (.other "example.com. 3600 IN")).2 = false := by
  have key : ∀ rendering : String,
      (convertRR (.other rendering)).2 = false ↔ (strings.Fields rendering).length < 4 := by
    intro rendering
    by_cases hl : (strings.Fields rendering).length ≥ 4
    · simp only [convertRR, hl, if_true]
      constructor
      · intro h; cases h
      · intro h; omega
    · simp only [convertRR, hl, if_false]
      constructor
      · intro _; omega
      · intro _; trivial
  refine ⟨?_, ?_, by decide⟩
  · intro drr
    cases drr with
    | other rendering =>
      rw [key]
      constructor
      · intro h; exact ⟨rendering, rfl, h⟩
      · rintro ⟨r, hr, h⟩
        cases hr
        exact h
    | _ =>
      constructor
      · intro h; cases h
      · rintro ⟨r, hr, _⟩; cases hr
  · intro rendering h
    rw [key]
    omega

/-- C9: whenever `convertRR` returns the success flag `false`, the returned
record is the zero value: `Name`, `Type`, `Value` and `Class` are the empty
string and `Ttl` is 0. -/
theorem convertRR_failure_zero_value (drr : dns.RR) (h : (convertRR drr).2 = false) :
    (convertRR drr).1 = ⟨"", "", "", "", 0⟩ := by
  cases drr with
  | other rendering =>
    by_cases hl : (strings.Fields rendering).length ≥ 4
    · simp [convertRR, hl] at h
    · simp only [convertRR, hl, if_false]
      rfl
  | _ => cases h

/-- A rendering with three fields fails, and C9 gives the zero value. -/
theorem convertRR_failure_zero_value_witness :
    (convertRR (.other "example.com. 3600 IN")).2 = false
    ∧ (convertRR (.other "example.com. 3600 IN")).1 = ⟨"", "", "", "", 0⟩ :=
  ⟨by decide, convertRR_failure_zero_value (.other "example.com. 3600 IN") (by decide)⟩

/-- C10: whenever `convertRR` returns the success flag `true`, by an explicit
branch or by the generic fallback, the returned record has a non-empty `Name`
and a non-empty `Type`. -/
theorem convertRR_success_name_type_nonempty (drr : dns.RR)
    (h : (convertRR drr).2 = true) :
    (convertRR drr).1.Name ≠ "" ∧ (convertRR drr).1.Type_ ≠ "" := by
  cases drr with
  | other rendering =>
    by_cases hl : (strings.Fields rendering).length ≥ 4
    · simp only [convertRR, hl, if_true]
      refine ⟨isLowerFQDN_ne_empty _ (toLowerFQDN_isLowerFQDN _), ?_⟩
      apply isField_ne_empty
      apply Fields_isField rendering
      have h3 : 3 < (strings.Fields rendering).length := by omega
      rw [List.getD_eq_getElem _ _ h3]
      exact List.getElem_mem _
    · simp [convertRR, hl] at h
  | _ =>
    refine ⟨isLowerFQDN_ne_empty _ (toLowerFQDN_isLowerFQDN _), ?_⟩
    simp only [convertRR]
    decide

/-- An A record with an empty header name and a record of another kind with
four fields succeed, and C10 gives a non-empty `Name` and `Type` for both. -/
theorem convertRR_success_name_type_nonempty_witness :
    ((convertRR (.A ⟨"", 1, 0⟩ [192, 0, 2, 1])).2 = true
      ∧ (convertRR (.A ⟨"", 1, 0⟩ [192, 0, 2, 1])).1.Name ≠ ""
      ∧ (convertRR (.A ⟨"", 1, 0⟩ [192, 0, 2, 1])).1.Type_ ≠ "")
    ∧ ((convertRR (.other "example.com. 3600 IN MX")).2 = true
      ∧ (convertRR (.other "example.com. 3600 IN MX")).1.Name ≠ ""
      ∧ (convertRR (.other "example.com. 3600 IN MX")).1.Type_ ≠ "") :=
  ⟨⟨by decide,
      convertRR_success_name_type_nonempty (.A ⟨"", 1, 0⟩ [192, 0, 2, 1]) (by decide)⟩,
    ⟨by decide,
      convertRR_success_name_type_nonempty (.other "example.com. 3600 IN MX") (by decide)⟩⟩

/-- C5: for every A record carrying the IPv4 address with octets `a`, `b`,
`c`, `d` (as four bytes or in the sixteen-byte IPv4-mapped form), `convertRR`
returns `Type` `A` and as `Value` the dotted-decimal text `a.b.c.d`; the
address 192.0.2.1 gives `192.0.2.1` and 127.0.53.53 gives the constant
`NameCollision`. -/
theorem convertRR_A_value (Hdr : dns.RR_Header) (a b c d : Nat)
    (ha : a < 256) (hb : b < 256) (hc : c < 256) (hd : d < 256) (A : List Nat)
    (hA : A = [a, b, c, d] ∨ A = [0, 0, 0, 0, 0, 0, 0, 0, 0, 0, 0xff, 0xff, a, b, c, d]) :
    (convertRR (.A Hdr A)).1.Type_ = "A"
    ∧ (convertRR (.A Hdr A)).1.Value = dottedDecimal a b c d := by
  refine ⟨rfl, ?_⟩
  show net.IP.String A = dottedDecimal a b c d
  rcases hA with rfl | rfl
  · have h4 : net.To4 [a, b, c, d] = some [a, b, c, d] := by simp [net.To4, net.IPv4len]
    simp only [net.IP.String, h4]
    simp [net.IPv4len, string4_eq a b c d ha hb hc hd]
  · have h4 : net.To4 [0, 0, 0, 0, 0, 0, 0, 0, 0, 0, 0xff, 0xff, a, b, c, d]
        = some [a, b, c, d] := by
      simp [net.To4, net.IPv4len, net.IPv6len]
    simp only [net.IP.String, h4]
    simp [net.IPv4len, net.IPv6len, string4_eq a b c d ha hb hc hd]

/-- The addresses 192.0.2.1 and 127.0.53.53 are within C5, and their values
are `192.0.2.1` and the constant `NameCollision`. -/
theorem convertRR_A_value_witness :
    (convertRR (.A ⟨"example.com.", 1, 300⟩ [192, 0, 2, 1])).1.Value = "192.0.2.1"
    ∧ (convertRR (.A ⟨"example.com.", 1, 300⟩
        [0, 0, 0, 0, 0, 0, 0, 0, 0, 0, 0xff, 0xff, 127, 0, 53, 53])).1.Value = NameCollision
    ∧ (convertRR (.A ⟨"example.com.", 1, 300⟩ [127, 0, 53, 53])).1.Value = NameCollision :=
  ⟨(convertRR_A_value ⟨"example.com.", 1, 300⟩ 192 0 2 1 (by decide) (by decide) (by decide)
      (by decide) [192, 0, 2, 1] (Or.inl rfl)).2.trans (by decide),
    (convertRR_A_value ⟨"example.com.", 1, 300⟩ 127 0 53 53 (by decide) (by decide)
      (by decide) (by decide) _ (Or.inr rfl)).2.trans (by decide),
    by decide⟩

/-- C6 (as stated) fails: the AAAA record whose address is the IPv4-mapped
`::ffff:1.2.3.4` gets the `Value` `1.2.3.4`, which contains no colon and is
neither the IPv6 text form `::ffff:102:304` of the address nor the mixed
form `::ffff:1.2.3.4`. -/
theorem convertRR_AAAA_v4_mapped_not_ipv6_text :
    (convertRR (.AAAA ⟨"example.com.", 1, 300⟩
        [0, 0, 0, 0, 0, 0, 0, 0, 0, 0, 0xff, 0xff, 1, 2, 3, 4])).1.Value = "1.2.3.4"
    ∧ ipv6Text [0, 0, 0, 0, 0, 0, 0, 0, 0, 0, 0xff, 0xff, 1, 2, 3, 4] = "::ffff:102:304"
    ∧ (convertRR (.AAAA ⟨"example.com.", 1, 300⟩
        [0, 0, 0, 0, 0, 0, 0, 0, 0, 0, 0xff, 0xff, 1, 2, 3, 4])).1.Value
        ≠ ipv6Text [0, 0, 0, 0, 0, 0, 0, 0, 0, 0, 0xff, 0xff, 1, 2, 3, 4]
    ∧ (convertRR (.AAAA ⟨"example.com.", 1, 300⟩
        [0, 0, 0, 0, 0, 0, 0, 0, 0, 0, 0xff, 0xff, 1, 2, 3, 4])).1.Value ≠ "::ffff:1.2.3.4"
    ∧ ':' ∉ (convertRR (.AAAA ⟨"example.com.", 1, 300⟩
        [0, 0, 0, 0, 0, 0, 0, 0, 0, 0, 0xff, 0xff, 1, 2, 3, 4])).1.Value.data := by
  decide

/-- C6 (amended): for every AAAA record whose address has sixteen bytes,
`convertRR` returns `Type` `AAAA`; when the address is not IPv4-mapped the
`Value` is the standard IPv6 text form of the address, and when it is
IPv4-mapped the `Value` is the dotted-decimal text of its last four bytes. -/
theorem convertRR_AAAA_value (Hdr : dns.RR_Header) (AAAA : List Nat)
    (hlen : AAAA.length = 16) (hb : ∀ b ∈ AAAA, b < 256) :
    (convertRR (.AAAA Hdr AAAA)).1.Type_ = "AAAA"
    ∧ (¬ isV4Mapped AAAA → (convertRR (.AAAA Hdr AAAA)).1.Value = ipv6Text AAAA)
    ∧ (isV4Mapped AAAA →
        (convertRR (.AAAA Hdr AAAA)).1.Value
          = dottedDecimal (AAAA.getD 12 0) (AAAA.getD 13 0) (AAAA.getD 14 0)
              (AAAA.getD 15 0)) := by
  have hS : (convertRR (.AAAA Hdr AAAA)).1.Value
      = match net.To4 AAAA with
        | some p4 => net.string4 p4
        | none => net.string6 AAAA := by
    show net.IP.String AAAA = _
    unfold net.IP.String
    rw [if_neg (by omega), if_neg (by simp [net.IPv6len, hlen])]
  refine ⟨rfl, ?_, ?_⟩
  · intro hm
    rw [hS, To4_sixteen AAAA hlen, if_neg hm]
    exact string6_eq_ipv6Text AAAA hlen hb
  · intro hm
    rw [hS, To4_sixteen AAAA hlen, if_pos hm]
    obtain ⟨b0, b1, b2, b3, b4, b5, b6, b7, b8, b9, b10, b11, b12, b13, b14, b15, rfl⟩ :=
      eq_of_length_sixteen AAAA hlen
    have h12 : b12 < 256 := hb b12 (by simp)
    have h13 : b13 < 256 := hb b13 (by simp)
    have h14 : b14 < 256 := hb b14 (by simp)
    have h15 : b15 < 256 := hb b15 (by simp)
    exact string4_eq b12 b13 b14 b15 h12 h13 h14 h15

/-- The address `::1` (fifteen zero bytes, then 1) is within C6 as amended,
and its `Value` is `::1`. -/
theorem convertRR_AAAA_value_witness :
    (convertRR (.AAAA ⟨"example.com.", 1, 300⟩
        [0, 0, 0, 0, 0, 0, 0, 0, 0, 0, 0, 0, 0, 0, 0, 1])).1.Value = "::1" :=
  ((convertRR_AAAA_value ⟨"example.com.", 1, 300⟩
      [0, 0, 0, 0, 0, 0, 0, 0, 0, 0, 0, 0, 0, 0, 0, 1] (by decide) (by decide)).2.1
    (by decide)).trans (by decide)

/-- C11 (as stated) fails: an A record with header TTL 0 is converted with
success to a record whose `Ttl` is 0, and an A record with the class code 0,
which has no mnemonic, to a record whose `Class` is empty. -/
theorem convertRR_explicit_zero_ttl_empty_class :
    ((convertRR (.A ⟨"example.com.", 1, 0⟩ [192, 0, 2, 1])).2 = true
      ∧ (convertRR (.A ⟨"example.com.", 1, 0⟩ [192, 0, 2, 1])).1.Ttl = 0)
    ∧ ((convertRR (.A ⟨"example.com.", 0, 300⟩ [192, 0, 2, 1])).2 = true
      ∧ (convertRR (.A ⟨"example.com.", 0, 300⟩ [192, 0, 2, 1])).1.Class = "") := by
  decide

/-- C11 (amended): for every input of an explicit kind the returned record
has a non-zero `Ttl` exactly when the header TTL is non-zero and a non-empty
`Class` exactly when the header class code is a key of the class table (1, 2,
3, 4, 254, 255); the generic fallback, when it succeeds, returns an empty
`Class` and a zero `Ttl`. -/
theorem convertRR_class_ttl_presence :
    (∀ (drr : dns.RR) (Hdr : dns.RR_Header), explicitHdr drr = some Hdr →
        ((convertRR drr).1.Ttl ≠ 0 ↔ Hdr.Ttl ≠ 0)
        ∧ ((convertRR drr).1.Class ≠ "" ↔ Hdr.Class ∈ [1, 2, 3, 4, 254, 255]))
    ∧ (∀ rendering : String,
        (convertRR (.other rendering)).1.Class = ""
        ∧ (convertRR (.other rendering)).1.Ttl = 0) := by
  refine ⟨?_, ?_⟩
  · intro drr Hdr hk
    obtain ⟨-, -, hc, ht⟩ := convertRR_explicit_header drr Hdr hk
    rw [hc, ht]
    exact ⟨Iff.rfl, ClassToString_ne_empty_iff Hdr.Class⟩
  · intro rendering
    by_cases hl : (strings.Fields rendering).length ≥ 4
    · simp only [convertRR, hl, if_true, and_self]
    · simp only [convertRR, hl, if_false]
      exact ⟨rfl, rfl⟩

/-- C13: for every input record of an explicit kind whose header name ends
with a dot, the `Name` of the result is exactly the lowercased header name:
it has the same length, still ends with the dot, and is the header name
itself when that contains no upper-case ASCII letter. -/
theorem convertRR_name_trailing_dot_preserved (drr : dns.RR) (Hdr : dns.RR_Header)
    (hk : explicitHdr drr = some Hdr) (hdot : Hdr.Name.data.getLast? = some '.') :
    (convertRR drr).1.Name = strings.ToLower Hdr.Name
    ∧ (convertRR drr).1.Name.length = Hdr.Name.length
    ∧ (convertRR drr).1.Name.data.getLast? = some '.'
    ∧ ((∀ c ∈ Hdr.Name.data, c.isUpper = false) → (convertRR drr).1.Name = Hdr.Name) := by
  obtain ⟨-, hn, -, -⟩ := convertRR_explicit_header drr Hdr hk
  rw [hn, toLowerFQDN_of_trailing_dot Hdr.Name hdot]
  refine ⟨rfl, ?_, ?_, ?_⟩
  · show (Hdr.Name.data.map Char.toLower).length = Hdr.Name.data.length
    exact List.length_map _ _
  · show (Hdr.Name.data.map Char.toLower).getLast? = some '.'
    rw [List.getLast?_map, hdot]
    rfl
  · exact ToLower_of_no_upper Hdr.Name

/-- An NS record named `Example.COM.` and a TXT record named `example.com.`
are within C13: the first name is lowercased, the second is unchanged. -/
theorem convertRR_name_trailing_dot_preserved_witness :
    (convertRR (.NS ⟨"Example.COM.", 1, 300⟩ "ns1.example.com.")).1.Name = "example.com."
    ∧ (convertRR (.TXT ⟨"example.com.", 1, 300⟩ ["v=spf1"])).1.Name = "example.com." :=
  ⟨(convertRR_name_trailing_dot_preserved (.NS ⟨"Example.COM.", 1, 300⟩ "ns1.example.com.")
      ⟨"Example.COM.", 1, 300⟩ rfl (by decide)).1.trans (by decide),
    (convertRR_name_trailing_dot_preserved (.TXT ⟨"example.com.", 1, 300⟩ ["v=spf1"])
      ⟨"example.com.", 1, 300⟩ rfl (by decide)).2.2.2 (by decide)⟩

/-- C14: for every input record of an explicit kind the `Ttl` of the result
is the header TTL, whatever its value, and the `Class` is the mnemonic that
the class table gives for the header class code (`IN` for the code 1), or the
empty string when the code is not in the table. -/
theorem convertRR_explicit_ttl_class (drr : dns.RR) (Hdr : dns.RR_Header)
    (hk : explicitHdr drr = some Hdr) :
    (convertRR drr).1.Ttl = Hdr.Ttl
    ∧ (∀ m, dns.classTable.lookup Hdr.Class = some m → (convertRR drr).1.Class = m)
    ∧ (dns.classTable.lookup Hdr.Class = none → (convertRR drr).1.Class = "")
    ∧ (Hdr.Class = 1 → (convertRR drr).1.Class = "IN") := by
  obtain ⟨-, -, hc, ht⟩ := convertRR_explicit_header drr Hdr hk
  rw [hc, ht]
  refine ⟨rfl, ?_, ?_, ?_⟩
  · intro m hm
    simp only [dns.ClassToString, hm]
  · intro hm
    simp only [dns.ClassToString, hm]
  · intro h1
    rw [h1]
    decide

/-- Records with the TTL 0 and the TTL 2^32-1, and with the class codes 1
and 0, are within C14: the TTL is copied, the class is `IN` and empty. -/
theorem convertRR_explicit_ttl_class_witness :
    ((convertRR (.A ⟨"example.com.", 1, 0⟩ [192, 0, 2, 1])).1.Ttl = 0
      ∧ (convertRR (.A ⟨"example.com.", 1, 0⟩ [192, 0, 2, 1])).1.Class = "IN")
    ∧ ((convertRR (.CNAME ⟨"example.com.", 0, 4294967295⟩ "example.net.")).1.Ttl = 4294967295
      ∧ (convertRR (.CNAME ⟨"example.com.", 0, 4294967295⟩ "example.net.")).1.Class = "") :=
  ⟨⟨(convertRR_explicit_ttl_class (.A ⟨"example.com.", 1, 0⟩ [192, 0, 2, 1])
        ⟨"example.com.", 1, 0⟩ rfl).1,
      (convertRR_explicit_ttl_class (.A ⟨"example.com.", 1, 0⟩ [192, 0, 2, 1])
        ⟨"example.com.", 1, 0⟩ rfl).2.2.2 rfl⟩,
    ⟨(convertRR_explicit_ttl_class (.CNAME ⟨"example.com.", 0, 4294967295⟩ "example.net.")
        ⟨"example.com.", 0, 4294967295⟩ rfl).1,
      (convertRR_explicit_ttl_class (.CNAME ⟨"example.com.", 0, 4294967295⟩ "example.net.")
        ⟨"example.com.", 0, 4294967295⟩ rfl).2.2.1 (by decide)⟩⟩

/-- C15: for every record of no explicit kind whose textual rendering splits
on whitespace into exactly four fields, `convertRR` succeeds: the fields from
index 4 on are the empty list, the `Value` is the empty string and the `Type`
is the fourth field. -/
theorem convertRR_generic_four_fields (rendering f0 f1 f2 f3 : String)
    (h : strings.Fields rendering = [f0, f1, f2, f3]) :
    (convertRR (.other rendering)).2 = true
    ∧ (strings.Fields rendering).drop 4 = []
    ∧ (convertRR (.other rendering)).1.Value = ""
    ∧ (convertRR (.other rendering)).1.Type_ = f3 := by
  have hc : convertRR (.other rendering) = (⟨toLowerFQDN f0, f3, "", "", 0⟩, true) := by
    simp only [convertRR, h, List.length_cons, List.length_nil, ge_iff_le, Nat.le_refl,
      if_true, List.getD_cons_zero, List.getD_cons_succ, List.drop_succ_cons, List.drop_nil,
      strings.Join]
  rw [hc, h]
  exact ⟨rfl, rfl, rfl, rfl⟩

/-- A rendering with exactly four fields is within C15, and the result has
the empty `Value` and the fourth field as `Type`. -/
theorem convertRR_generic_four_fields_witness :
    strings.Fields "example.com.\t3600\tIN\tMX" = ["example.com.", "3600", "IN", "MX"]
    ∧ (convertRR (.other "example.com.\t3600\tIN\tMX")).2 = true
    ∧ (convertRR (.other "example.com.\t3600\tIN\tMX")).1.Value = ""
    ∧ (convertRR (.other "example.com.\t3600\tIN\tMX")).1.Type_ = "MX" :=
  ⟨by decide,
    (convertRR_generic_four_fields "example.com.\t3600\tIN\tMX" "example.com." "3600" "IN" "MX"
      (by decide)).1,
    (convertRR_generic_four_fields "example.com.\t3600\tIN\tMX" "example.com." "3600" "IN" "MX"
      (by decide)).2.2.1,
    (convertRR_generic_four_fields "example.com.\t3600\tIN\tMX" "example.com." "3600" "IN" "MX"
      (by decide)).2.2.2⟩

/-- C12 (as stated) fails: the line of the record `example.com.` / 3600 /
`IN` / `A` / `192.0.2.1` has six spaces after the first tab and one space
after the second, so it is not the layout with a single tab and nothing else
between consecutive fields. -/
theorem RR_String_not_single_tabs :
    RR.String ⟨"example.com.", "A", "192.0.2.1", "IN", 3600⟩
        = "example.com.\t      3600\t IN\tA\t192.0.2.1"
    ∧ tabLine ⟨"example.com.", "A", "192.0.2.1", "IN", 3600⟩
        = "example.com.\t3600\tIN\tA\t192.0.2.1"
    ∧ RR.String ⟨"example.com.", "A", "192.0.2.1", "IN", 3600⟩
        ≠ tabLine ⟨"example.com.", "A", "192.0.2.1", "IN", 3600⟩ := by
  decide

/-- C12 (amended): for every record the `String` rendering is `Name`, the
decimal text of `Ttl`, `Class`, `Type` and `Value` in that order, separated
by one tab followed by six spaces, one tab followed by one space, one tab and
one tab; the tab characters of the line are these four and those inside the
fields. -/
theorem RR_String_layout (rr : RR) :
    RR.String rr
      = rr.Name ++ ("\t" ++ String.mk (List.replicate 6 ' ')) ++ toString rr.Ttl
          ++ ("\t" ++ " ") ++ rr.Class ++ "\t" ++ rr.Type_ ++ "\t" ++ rr.Value
    ∧ (RR.String rr).data.count '\t'
      = 4 + (rr.Name.data.count '\t' + rr.Class.data.count '\t'
              + rr.Type_.data.count '\t' + rr.Value.data.count '\t') := by
  refine ⟨rfl, ?_⟩
  have hT : (Sprint rr.Ttl).data.count '\t' = 0 := by
    apply List.count_eq_zero.2
    intro hmem
    have := (Sprint_isField rr.Ttl).2 '\t' hmem
    revert this
    decide
  have h1 : ("\t      " : String).data.count '\t' = 1 := by decide
  have h2 : ("\t " : String).data.count '\t' = 1 := by decide
  have h3 : ("\t" : String).data.count '\t' = 1 := by decide
  simp only [RR.String, String.data_append, List.count_append, hT, h1, h2, h3]
  omega

/-- C16: for every record of no explicit kind whose rendering has the fields
`f0, f1, f2, f3` and further fields `rest`, splitting the `Value` of the
result on whitespace yields exactly `rest`: the `Value` is the fields of
`rest` with single tabs between them, and no field contains whitespace. -/
theorem convertRR_generic_value_fields (rendering f0 f1 f2 f3 : String) (rest : List String)
    (h : strings.Fields rendering = f0 :: f1 :: f2 :: f3 :: rest) :
    strings.Fields (convertRR (.other rendering)).1.Value = rest
    ∧ (convertRR (.other rendering)).1.Value = tabJoined rest
    ∧ (∀ f ∈ rest, isField f) := by
  have hv : (convertRR (.other rendering)).1.Value = tabJoined rest := by
    simp only [convertRR, h, List.length_cons, ge_iff_le, Nat.le_add_left, if_true,
      List.drop_succ_cons, List.drop_zero, Join_tab_eq_tabJoined]
  have hf : ∀ f ∈ rest, isField f := by
    intro f hmem
    apply Fields_isField rendering
    rw [h]
    simp [hmem]
  exact ⟨by rw [hv]; exact Fields_tabJoined rest hf, hv, hf⟩

/-- A rendering with seven fields, separated by spaces and tabs, is within
C16: the `Value` splits into the last three fields. -/
theorem convertRR_generic_value_fields_witness :
    strings.Fields "example.com.  300 IN\tSRV 10   20\t5060"
        = ["example.com.", "300", "IN", "SRV", "10", "20", "5060"]
    ∧ strings.Fields (convertRR (.other "example.com.  300 IN\tSRV 10   20\t5060")).1.Value
        = ["10", "20", "5060"] :=
  ⟨by decide,
    (convertRR_generic_value_fields "example.com.  300 IN\tSRV 10   20\t5060"
      "example.com." "300" "IN" "SRV" ["10", "20", "5060"] (by decide)).1⟩

/-- C17: for every TXT record with a non-empty list of text segments none of
which contains a tab character, splitting the converted `Value` on the tab
character returns exactly the list of segments. -/
theorem convertRR_TXT_split_roundtrip (Hdr : dns.RR_Header) (Txt : List String)
    (hne : Txt ≠ []) (hnt : ∀ s ∈ Txt, '\t' ∉ s.data) :
    strings.Split (convertRR (.TXT Hdr Txt)).1.Value '\t' = Txt := by
  show strings.Split (strings.Join Txt "\t") '\t' = Txt
  rw [Join_tab_eq_tabJoined]
  cases Txt with
  | nil => exact absurd rfl hne
  | cons s rest =>
    have := splitLoop_tabJoined s rest hnt []
    simpa [strings.Split] using this

/-- The segments `v=spf1`, the empty segment and `a b` are within C17, and
splitting the `Value` returns them. -/
theorem convertRR_TXT_split_roundtrip_witness :
    strings.Split (convertRR (.TXT ⟨"example.com.", 1, 300⟩ ["v=spf1", "", "a b"])).1.Value '\t'
      = ["v=spf1", "", "a b"] :=
  convertRR_TXT_split_roundtrip ⟨"example.com.", 1, 300⟩ ["v=spf1", "", "a b"] (by decide)
    (by decide)

/-- C18: for every record whose `Name`, `Class`, `Type` and `Value` are each
non-empty and free of whitespace, splitting the `String` rendering on
whitespace yields exactly the five fields `Name`, decimal `Ttl`, `Class`,
`Type`, `Value`; so field 0 is the `Name`, field 3 the `Type` and field 4 the
`Value`. -/
theorem RR_String_fields (rr : RR) (hN : isField rr.Name) (hC : isField rr.Class)
    (hT : isField rr.Type_) (hV : isField rr.Value) :
    strings.Fields (RR.String rr) = [rr.Name, toString rr.Ttl, rr.Class, rr.Type_, rr.Value]
    ∧ (strings.Fields (RR.String rr)).getD 0 "" = rr.Name
    ∧ (strings.Fields (RR.String rr)).getD 3 "" = rr.Type_
    ∧ (strings.Fields (RR.String rr)).getD 4 "" = rr.Value := by
  have hsp : strings.IsSpace ' ' = true := by decide
  have htab : strings.IsSpace '\t' = true := by decide
  have hdata : (RR.String rr).data
      = rr.Name.data ++ '\t' :: ' ' :: ' ' :: ' ' :: ' ' :: ' ' :: ' ' ::
          ((Sprint rr.Ttl).data ++ '\t' :: ' ' ::
            (rr.Class.data ++ '\t' :: (rr.Type_.data ++ '\t' :: rr.Value.data))) := by
    simp only [RR.String, String.data_append, List.append_assoc]
    rfl
  have hF : strings.Fields (RR.String rr)
      = [rr.Name, toString rr.Ttl, rr.Class, rr.Type_, rr.Value] := by
    unfold strings.Fields
    rw [hdata, fieldsLoop_field_space rr.Name hN '\t' htab,
      fieldsLoop_space ' ' hsp, fieldsLoop_space ' ' hsp, fieldsLoop_space ' ' hsp,
      fieldsLoop_space ' ' hsp, fieldsLoop_space ' ' hsp, fieldsLoop_space ' ' hsp,
      fieldsLoop_field_space (Sprint rr.Ttl) (Sprint_isField rr.Ttl) '\t' htab,
      fieldsLoop_space ' ' hsp,
      fieldsLoop_field_space rr.Class hC '\t' htab,
      fieldsLoop_field_space rr.Type_ hT '\t' htab,
      fieldsLoop_field_end rr.Value hV]
    rfl
  rw [hF]
  exact ⟨rfl, rfl, rfl, rfl⟩

/-- The record `example.com.` / 3600 / `IN` / `A` / `192.0.2.1` is within
C18, and its line splits into these five fields. -/
theorem RR_String_fields_witness :
    strings.Fields (RR.String ⟨"example.com.", "A", "192.0.2.1", "IN", 3600⟩)
      = ["example.com.", "3600", "IN", "A", "192.0.2.1"] :=
  (RR_String_fields ⟨"example.com.", "A", "192.0.2.1", "IN", 3600⟩
    ⟨by decide, by decide⟩ ⟨by decide, by decide⟩ ⟨by decide, by decide⟩
    ⟨by decide, by decide⟩).1

end dnsr
